import Mathlib

/-!
Shallow embedding of the wiring-registry core of the `ioc` crate
(`src/register.rs`): the `WiringOption` state machine, the `ObjectMap`
(a `BTreeMap`-backed, name-keyed collection of options), the typed
accessor with its `GetObjectError` taxonomy, iteration, and the
`Register` builder facade.

Modelling conventions:
* Type-erased objects (`Box<Obj>` where `Obj: Any`) are modelled as an
  `Object` record carrying a numeric type identity (`tyId`, standing for
  `std::any::TypeId`) and a payload.  A reflected type `T : OptionReflect`
  is a record of its reflected option name and its type identity;
  `downcast_ref`/`downcast_mut` succeed exactly when the erased object's
  runtime type identity equals the target type's identity, which is the
  semantics of `Any`/`QDowncastable` downcasting.
* A Rust panic (from `assert!`, `expect`, `unwrap`, or an unreachable
  arm) is modelled as `none`/the absent result: every fallible operation
  returns an `Option` whose `none` means "fatal contract violation".
* The `BTreeMap<String, WiringOption>` is modelled as an association
  list kept sorted by key: `insertSorted` models `BTreeMap::insert`
  (overwriting an existing key) and `setKey` models in-place mutation of
  an existing entry through `get_mut`.  `lookupOption` models
  `BTreeMap::get`.
* `alternatives[idx]` (Rust slice indexing, which panics out of bounds)
  is modelled with `List.get?`; under the registry invariant (claim C7:
  a wired index always points at an existing alternative) the index is
  in bounds, so the partiality never manifests on reachable states.
-/

namespace Ioc

/-- Byte-order comparison of characters, as used by `Ord for char`. -/
def charLt (a b : Char) : Bool := a.toNat < b.toNat

/-- Lexicographic order on character lists. -/
def strLtAux : List Char → List Char → Bool
  | [], [] => false
  | [], _ :: _ => true
  | _ :: _, [] => false
  | a :: as, b :: bs => charLt a b || (a = b && strLtAux as bs)

/-- Lexicographic order on strings: the `Ord for String` used by
`BTreeMap<String, _>` to order its keys. -/
def strLt (a b : String) : Bool := strLtAux a.data b.data

/-- Erased stored object: a runtime type identity (`TypeId`) plus a
payload distinguishing individual objects. -/
structure Object where
  tyId : Nat
  val : Nat
deriving DecidableEq, Repr

/-- Models the `OptionReflect` trait bound on a concrete type `T`:
its reflected option name (`T::option_name()`) and its type identity
(`TypeId::of::<T>()`). -/
structure OptionReflect where
  option_name : String
  tyId : Nat
deriving DecidableEq, Repr

/-- `GetObjectError` from `src/register.rs` (type identities as `Nat`). -/
inductive GetObjectError where
  | TypeMismatch (option_name : String) (expected : Nat) (found : Nat)
  | MissingOption (name : String)
deriving DecidableEq, Repr

deriving instance DecidableEq for Except

/-- `GetObjectError::type_mismatch::<Expected>(found)`. -/
def GetObjectError.type_mismatch (T : OptionReflect) (found : Nat) : GetObjectError :=
  GetObjectError.TypeMismatch T.option_name T.tyId found

/-- The `WiringOption` enum: a `Multi` option with an optional wired
index into its named alternatives, or a `Single` always-wired object. -/
inductive WiringOption where
  | Multi (wired : Option Nat) (alternatives : List (String × Object))
  | Single (obj : Object)
deriving DecidableEq, Repr

/-- `WiringOption::has_alternative`. -/
def WiringOption.has_alternative : WiringOption → String → Bool
  | WiringOption.Multi _ alts, alt_name => alts.any (fun e => e.1 = alt_name)
  | WiringOption.Single _, _ => false

/-- `WiringOption::add_alternative`: asserts the alternative is absent
(panic otherwise), then appends on `Multi` and panics on `Single`. -/
def WiringOption.add_alternative (o : WiringOption) (alt_name : String) (obj : Object) :
    Option WiringOption :=
  if o.has_alternative alt_name then none
  else match o with
    | WiringOption.Multi wired alts =>
        some (WiringOption.Multi wired (alts ++ [(alt_name, obj)]))
    | WiringOption.Single _ => none

/-- `WiringOption::wire_alternative`: asserts the alternative exists
(panic otherwise), then stores its position as the wired index.  The
`Single` arm is `unreachable!()` in the source, since a `Single` never
has an alternative; it is modelled as the same fatal outcome. -/
def WiringOption.wire_alternative (o : WiringOption) (alt_name : String) : Option WiringOption :=
  if o.has_alternative alt_name then
    match o with
    | WiringOption.Multi _ alts =>
        some (WiringOption.Multi (some (alts.findIdx (fun e => e.1 = alt_name))) alts)
    | WiringOption.Single _ => none
  else none

/-- `WiringOption::object`: `Single` always yields its object, `Multi`
yields the wired alternative's object when wired. -/
def WiringOption.object : WiringOption → Option Object
  | WiringOption.Single obj => some obj
  | WiringOption.Multi (some idx) alts => (alts.get? idx).map Prod.snd
  | WiringOption.Multi none _ => none

/-- `WiringOption::object_mut` (same selection logic as `object`). -/
def WiringOption.object_mut : WiringOption → Option Object
  | WiringOption.Single obj => some obj
  | WiringOption.Multi (some idx) alts => (alts.get? idx).map Prod.snd
  | WiringOption.Multi none _ => none

/-- `BTreeMap::get` on the sorted association list. -/
def lookupOption (name : String) : List (String × WiringOption) → Option WiringOption
  | [] => none
  | (k, v) :: rest => if k = name then some v else lookupOption name rest

/-- `BTreeMap::contains_key`. -/
def containsKey (name : String) (l : List (String × WiringOption)) : Bool :=
  (lookupOption name l).isSome

/-- `BTreeMap::insert`: inserts keeping keys sorted, overwriting an
existing entry with the same key. -/
def insertSorted (name : String) (v : WiringOption) :
    List (String × WiringOption) → List (String × WiringOption)
  | [] => [(name, v)]
  | (k, w) :: rest =>
    if strLt name k then (name, v) :: (k, w) :: rest
    else if name = k then (name, v) :: rest
    else (k, w) :: insertSorted name v rest

/-- In-place replacement of the entry at an existing key, modelling
mutation of the `&mut WiringOption` obtained from `BTreeMap::get_mut`. -/
def setKey (name : String) (v : WiringOption) :
    List (String × WiringOption) → List (String × WiringOption)
  | [] => []
  | (k, w) :: rest =>
    if k = name then (k, v) :: rest else (k, w) :: setKey name v rest

/-- The `ObjectMap`: the `BTreeMap<String, WiringOption<Obj>>`. -/
structure ObjectMap where
  options : List (String × WiringOption)
deriving DecidableEq, Repr

/-- `ObjectMap::get_object`. -/
def ObjectMap.get_object (m : ObjectMap) (opt_name : String) : Option Object :=
  (lookupOption opt_name m.options).bind WiringOption.object

/-- `ObjectMap::get_object_mut`. -/
def ObjectMap.get_object_mut (m : ObjectMap) (opt_name : String) : Option Object :=
  (lookupOption opt_name m.options).bind WiringOption.object_mut

/-- `QDowncastable::downcast_ref::<T>`: succeeds exactly when the erased
object's runtime type identity equals `T`'s. -/
def downcast_ref (T : OptionReflect) (obj : Object) : Option Object :=
  if obj.tyId = T.tyId then some obj else none

/-- `QDowncastable::downcast_mut::<T>` (same test as `downcast_ref`). -/
def downcast_mut (T : OptionReflect) (obj : Object) : Option Object :=
  if obj.tyId = T.tyId then some obj else none

/-- `ObjectMap::get::<T>`. -/
def ObjectMap.get (m : ObjectMap) (T : OptionReflect) : Except GetObjectError Object :=
  match m.get_object T.option_name with
  | some base =>
      match downcast_ref T base with
      | some ret => Except.ok ret
      | none => Except.error (GetObjectError.type_mismatch T base.tyId)
  | none => Except.error (GetObjectError.MissingOption T.option_name)

/-- `ObjectMap::get_mut::<T>`. -/
def ObjectMap.get_mut (m : ObjectMap) (T : OptionReflect) : Except GetObjectError Object :=
  match m.get_object_mut T.option_name with
  | some base =>
      match downcast_mut T base with
      | some ret => Except.ok ret
      | none => Except.error (GetObjectError.type_mismatch T base.tyId)
  | none => Except.error (GetObjectError.MissingOption T.option_name)

/-- `Index::index` for `ObjectMap`: `get_object(name).unwrap()` — the
`none` outcome is the `unwrap` panic. -/
def ObjectMap.index (m : ObjectMap) (name : String) : Option Object :=
  m.get_object name

/-- `IndexMut::index_mut` for `ObjectMap`: `get_object_mut(name).unwrap()`. -/
def ObjectMap.index_mut (m : ObjectMap) (name : String) : Option Object :=
  m.get_object_mut name

/-- One step of `Iter::next`: take the next map entry; yield it when its
option resolves to an object, otherwise recurse on the rest (the
self-call `self.next()` of the source). -/
def Iter.next : List (String × WiringOption) →
    Option ((String × Object) × List (String × WiringOption))
  | [] => none
  | (opt_name, option) :: rest =>
    match option.object with
    | some obj => some ((opt_name, obj), rest)
    | none => Iter.next rest

/-- One step of `IterMut::next` (uses `object_mut`). -/
def IterMut.next : List (String × WiringOption) →
    Option ((String × Object) × List (String × WiringOption))
  | [] => none
  | (opt_name, option) :: rest =>
    match option.object_mut with
    | some obj => some ((opt_name, obj), rest)
    | none => IterMut.next rest

/-- The full sequence produced by draining `Iter`. -/
def iterObjects : List (String × WiringOption) → List (String × Object)
  | [] => []
  | (opt_name, option) :: rest =>
    match option.object with
    | some obj => (opt_name, obj) :: iterObjects rest
    | none => iterObjects rest

/-- The full sequence produced by draining `IterMut`. -/
def iterMutObjects : List (String × WiringOption) → List (String × Object)
  | [] => []
  | (opt_name, option) :: rest =>
    match option.object_mut with
    | some obj => (opt_name, obj) :: iterMutObjects rest
    | none => iterMutObjects rest

/-- Draining `Iter` by repeatedly calling `Iter.next`, with explicit
fuel bounding the number of `next` calls. -/
def drainFuel : Nat → List (String × WiringOption) → List (String × Object)
  | 0, _ => []
  | fuel + 1, l =>
    match Iter.next l with
    | none => []
    | some (item, rest) => item :: drainFuel fuel rest

/-- The `Register` builder facade wrapping an `ObjectMap`. -/
structure Register where
  objects : ObjectMap
deriving DecidableEq, Repr

/-- `Register::new`. -/
def Register.new : Register := ⟨⟨[]⟩⟩

/-- `Register::add_option`: asserts the name is absent (panic
otherwise), then inserts an empty unwired `Multi` option. -/
def Register.add_option (r : Register) (name : String) : Option Register :=
  if containsKey name r.objects.options then none
  else some ⟨⟨insertSorted name (WiringOption.Multi none []) r.objects.options⟩⟩

/-- `Register::add_alternative`: `expect`s the option to exist (panic
otherwise), then delegates to `WiringOption::add_alternative`. -/
def Register.add_alternative (r : Register) (opt_name alt_name : String) (obj : Object) :
    Option Register :=
  match lookupOption opt_name r.objects.options with
  | none => none
  | some o =>
      (o.add_alternative alt_name obj).map
        (fun o2 => ⟨⟨setKey opt_name o2 r.objects.options⟩⟩)

/-- `Register::wire_alternative`: `expect`s the option to exist (panic
otherwise), then delegates to `WiringOption::wire_alternative`. -/
def Register.wire_alternative (r : Register) (opt_name alt_name : String) : Option Register :=
  match lookupOption opt_name r.objects.options with
  | none => none
  | some o =>
      (o.wire_alternative alt_name).map
        (fun o2 => ⟨⟨setKey opt_name o2 r.objects.options⟩⟩)

/-- `Register::add_single` exactly as written in the source: the
`assert!` condition is `contains_key` (not its negation), so the
operation is fatal when the name is ABSENT, and overwrites when the
name is present. -/
def Register.add_single (r : Register) (name : String) (obj : Object) : Option Register :=
  if containsKey name r.objects.options then
    some ⟨⟨insertSorted name (WiringOption.Single obj) r.objects.options⟩⟩
  else none

/-- Registry invariant of claim C7: a wired index, when present, points
at an existing alternative. -/
def WiringOption.wiredInBounds : WiringOption → Bool
  | WiringOption.Multi (some idx) alts => idx < alts.length
  | _ => true

/-- The invariant over a whole `ObjectMap`. -/
def ObjectMap.Inv (m : ObjectMap) : Bool :=
  m.options.all (fun p => p.2.wiredInBounds)

/-- Keys strictly sorted (hence unique): the `BTreeMap` representation
invariant of the backing list. -/
def keysSorted : List (String × WiringOption) → Bool
  | [] => true
  | a :: rest => (rest.all (fun b => strLt a.1 b.1)) && keysSorted rest

/-! ### Shared lemmas -/

theorem WiringOption.object_mut_eq (o : WiringOption) : o.object_mut = o.object := by
  cases o with
  | Single obj => rfl
  | Multi wired alts => cases wired <;> rfl

theorem ObjectMap.get_object_mut_eq (m : ObjectMap) (n : String) :
    m.get_object_mut n = m.get_object n := by
  unfold ObjectMap.get_object_mut ObjectMap.get_object
  cases lookupOption n m.options with
  | none => rfl
  | some o => simp [WiringOption.object_mut_eq]

theorem ObjectMap.get_mut_eq (m : ObjectMap) (T : OptionReflect) : m.get_mut T = m.get T := by
  unfold ObjectMap.get_mut ObjectMap.get
  rw [ObjectMap.get_object_mut_eq]
  cases m.get_object T.option_name with
  | none => rfl
  | some b => rfl

theorem lookupOption_mem {n : String} {o : WiringOption} :
    ∀ {l : List (String × WiringOption)}, lookupOption n l = some o → (n, o) ∈ l := by
  intro l
  induction l with
  | nil => intro h; simp [lookupOption] at h
  | cons a rest ih =>
    intro h
    obtain ⟨k, v⟩ := a
    simp only [lookupOption] at h
    split at h
    · next heq =>
      cases h
      subst heq
      exact List.mem_cons_self _ _
    · exact List.mem_cons_of_mem _ (ih h)

theorem Inv_lookup {m : ObjectMap} (hinv : m.Inv = true) {n : String} {o : WiringOption}
    (h : lookupOption n m.options = some o) : o.wiredInBounds = true :=
  List.all_eq_true.mp hinv _ (lookupOption_mem h)

theorem mem_setKey {k : String} {v : WiringOption} {p : String × WiringOption} :
    ∀ {l : List (String × WiringOption)}, p ∈ setKey k v l → p = (k, v) ∨ p ∈ l := by
  intro l
  induction l with
  | nil => intro h; simp [setKey] at h
  | cons a rest ih =>
    intro h
    obtain ⟨k2, w⟩ := a
    simp only [setKey] at h
    split at h
    · next heq =>
      rcases List.mem_cons.mp h with h1 | h2
      · exact Or.inl (by rw [h1, heq])
      · exact Or.inr (List.mem_cons_of_mem _ h2)
    · rcases List.mem_cons.mp h with h1 | h2
      · exact Or.inr (h1 ▸ List.mem_cons_self _ _)
      · rcases ih h2 with h3 | h4
        · exact Or.inl h3
        · exact Or.inr (List.mem_cons_of_mem _ h4)

theorem lookupOption_setKey_self {k : String} {v : WiringOption} {o : WiringOption} :
    ∀ {l : List (String × WiringOption)}, lookupOption k l = some o →
      lookupOption k (setKey k v l) = some v := by
  intro l
  induction l with
  | nil => intro h; simp [lookupOption] at h
  | cons a rest ih =>
    intro h
    obtain ⟨k2, w⟩ := a
    simp only [lookupOption] at h
    simp only [setKey]
    split
    · next heq => simp [lookupOption, heq]
    · next hne =>
      rw [if_neg hne] at h
      simp only [lookupOption]
      rw [if_neg hne]
      exact ih h

theorem lookupOption_setKey_ne {n k : String} {v : WiringOption} (hne : n ≠ k) :
    ∀ (l : List (String × WiringOption)),
      lookupOption n (setKey k v l) = lookupOption n l := by
  intro l
  induction l with
  | nil => rfl
  | cons a rest ih =>
    obtain ⟨k2, w⟩ := a
    simp only [setKey]
    split
    · next heq =>
      have hk2 : k2 ≠ n := fun hc => hne (hc.symm.trans heq)
      simp [lookupOption, hk2]
    · simp only [lookupOption]
      split
      · rfl
      · exact ih

theorem mem_insertSorted {k : String} {v : WiringOption} {p : String × WiringOption} :
    ∀ {l : List (String × WiringOption)}, p ∈ insertSorted k v l → p = (k, v) ∨ p ∈ l := by
  intro l
  induction l with
  | nil => intro h; simpa [insertSorted] using h
  | cons a rest ih =>
    intro h
    obtain ⟨k2, w⟩ := a
    simp only [insertSorted] at h
    split at h
    · rcases List.mem_cons.mp h with h1 | h2
      · exact Or.inl h1
      · exact Or.inr h2
    · split at h
      · rcases List.mem_cons.mp h with h1 | h2
        · exact Or.inl h1
        · exact Or.inr (List.mem_cons_of_mem _ h2)
      · rcases List.mem_cons.mp h with h1 | h2
        · exact Or.inr (h1 ▸ List.mem_cons_self _ _)
        · rcases ih h2 with h3 | h4
          · exact Or.inl h3
          · exact Or.inr (List.mem_cons_of_mem _ h4)

theorem strLtAux_irrefl : ∀ cs : List Char, strLtAux cs cs = false := by
  intro cs
  induction cs with
  | nil => rfl
  | cons c rest ih => simp [strLtAux, charLt, ih]

theorem strLt_irrefl (a : String) : strLt a a = false := strLtAux_irrefl a.data

theorem keysSorted_cons {a : String × WiringOption} {rest : List (String × WiringOption)}
    (h : keysSorted (a :: rest) = true) :
    keysSorted rest = true ∧ ∀ b ∈ rest, strLt a.1 b.1 = true := by
  simp only [keysSorted, Bool.and_eq_true] at h
  exact ⟨h.2, fun b hb => List.all_eq_true.mp h.1 b hb⟩

theorem iterObjects_key_mem :
    ∀ {l : List (String × WiringOption)} {p : String × Object},
      p ∈ iterObjects l → ∃ o, (p.1, o) ∈ l := by
  intro l
  induction l with
  | nil => intro p h; simp [iterObjects] at h
  | cons a rest ih =>
    intro p h
    obtain ⟨k, v⟩ := a
    simp only [iterObjects] at h
    split at h
    · next obj _ =>
      rcases List.mem_cons.mp h with h1 | h2
      · exact ⟨v, by rw [h1]; exact List.mem_cons_self _ _⟩
      · obtain ⟨o, ho⟩ := ih h2
        exact ⟨o, List.mem_cons_of_mem _ ho⟩
    · obtain ⟨o, ho⟩ := ih h
      exact ⟨o, List.mem_cons_of_mem _ ho⟩

theorem all_wiredInBounds_setKey {l : List (String × WiringOption)} {k : String}
    {v : WiringOption} (hl : l.all (fun p => p.2.wiredInBounds) = true)
    (hv : v.wiredInBounds = true) :
    (setKey k v l).all (fun p => p.2.wiredInBounds) = true := by
  rw [List.all_eq_true] at hl ⊢
  intro p hp
  rcases mem_setKey hp with h1 | h2
  · rw [h1]; exact hv
  · exact hl p h2

theorem all_wiredInBounds_insertSorted {l : List (String × WiringOption)} {k : String}
    {v : WiringOption} (hl : l.all (fun p => p.2.wiredInBounds) = true)
    (hv : v.wiredInBounds = true) :
    (insertSorted k v l).all (fun p => p.2.wiredInBounds) = true := by
  rw [List.all_eq_true] at hl ⊢
  intro p hp
  rcases mem_insertSorted hp with h1 | h2
  · rw [h1]; exact hv
  · exact hl p h2

theorem iterObjects_cons_some {k : String} {v : WiringOption} {obj : Object}
    {rest : List (String × WiringOption)} (hv : v.object = some obj) :
    iterObjects ((k, v) :: rest) = (k, obj) :: iterObjects rest := by
  simp only [iterObjects]
  rw [hv]

theorem iterObjects_cons_skip {k : String} {v : WiringOption}
    {rest : List (String × WiringOption)} (hv : v.object = none) :
    iterObjects ((k, v) :: rest) = iterObjects rest := by
  simp only [iterObjects]
  rw [hv]

theorem iterMutObjects_eq : ∀ l : List (String × WiringOption),
    iterMutObjects l = iterObjects l := by
  intro l
  induction l with
  | nil => rfl
  | cons a rest ih =>
    obtain ⟨k, v⟩ := a
    unfold iterMutObjects iterObjects
    rw [WiringOption.object_mut_eq]
    cases v.object <;> simp [ih]

theorem iterObjects_mem_iff (n : String) (obj : Object) :
    ∀ {l : List (String × WiringOption)}, keysSorted l = true →
      ((n, obj) ∈ iterObjects l ↔ (lookupOption n l).bind WiringOption.object = some obj) := by
  intro l
  induction l with
  | nil => intro _; simp [iterObjects, lookupOption]
  | cons a rest ih =>
    intro hs
    obtain ⟨k, v⟩ := a
    obtain ⟨hrest, hlt⟩ := keysSorted_cons hs
    have hihs := ih hrest
    by_cases hk : k = n
    · subst hk
      have hlook : lookupOption k ((k, v) :: rest) = some v := by
        simp [lookupOption]
      rw [hlook, Option.some_bind]
      cases hv : v.object with
      | some o =>
        rw [iterObjects_cons_some hv]
        constructor
        · intro hmem
          rcases List.mem_cons.mp hmem with h1 | h2
          · cases h1
            rfl
          · exfalso
            obtain ⟨o2, ho2⟩ := iterObjects_key_mem h2
            have hcon := hlt _ ho2
            rw [strLt_irrefl] at hcon
            cases hcon
        · intro hsome
          cases hsome
          exact List.mem_cons_self _ _
      | none =>
        rw [iterObjects_cons_skip hv]
        constructor
        · intro hmem
          exfalso
          obtain ⟨o2, ho2⟩ := iterObjects_key_mem hmem
          have hcon := hlt _ ho2
          rw [strLt_irrefl] at hcon
          cases hcon
        · intro h
          cases h
    · have hlook : lookupOption n ((k, v) :: rest) = lookupOption n rest := by
        simp [lookupOption, hk]
      rw [hlook]
      cases hv : v.object with
      | some o =>
        rw [iterObjects_cons_some hv]
        constructor
        · intro hmem
          rcases List.mem_cons.mp hmem with h1 | h2
          · exfalso
            have : n = k := congrArg Prod.fst h1
            exact hk this.symm
          · exact hihs.mp h2
        · intro h2
          exact List.mem_cons_of_mem _ (hihs.mpr h2)
      | none =>
        rw [iterObjects_cons_skip hv]
        exact hihs

theorem iterObjects_pairwise :
    ∀ {l : List (String × WiringOption)}, keysSorted l = true →
      (iterObjects l).Pairwise (fun a b => strLt a.1 b.1 = true) := by
  intro l
  induction l with
  | nil => intro _; simp [iterObjects]
  | cons a rest ih =>
    intro hs
    obtain ⟨k, v⟩ := a
    obtain ⟨hrest, hlt⟩ := keysSorted_cons hs
    cases hv : v.object with
    | some o =>
      rw [iterObjects_cons_some hv]
      refine List.pairwise_cons.mpr ⟨?_, ih hrest⟩
      intro b hb
      obtain ⟨o2, ho2⟩ := iterObjects_key_mem hb
      exact hlt _ ho2
    | none =>
      rw [iterObjects_cons_skip hv]
      exact ih hrest

theorem IterMut.next_eq : ∀ l : List (String × WiringOption),
    IterMut.next l = Iter.next l := by
  intro l
  induction l with
  | nil => rfl
  | cons a rest ih =>
    obtain ⟨k, v⟩ := a
    unfold IterMut.next Iter.next
    rw [WiringOption.object_mut_eq]
    cases v.object <;> simp [ih]

theorem Iter.next_length :
    ∀ {l : List (String × WiringOption)} {item rest},
      Iter.next l = some (item, rest) → rest.length < l.length := by
  intro l
  induction l with
  | nil => intro item rest h; cases h
  | cons a r2 ih =>
    intro item rest h
    obtain ⟨k, v⟩ := a
    unfold Iter.next at h
    cases hv : v.object with
    | some o =>
      rw [hv] at h
      cases h
      exact Nat.lt_succ_self _
    | none =>
      rw [hv] at h
      exact Nat.lt_trans (ih h) (Nat.lt_succ_self _)

theorem Iter.next_iter_none {l : List (String × WiringOption)}
    (h : Iter.next l = none) : iterObjects l = [] := by
  induction l with
  | nil => rfl
  | cons a rest ih =>
    obtain ⟨k, v⟩ := a
    unfold Iter.next at h
    cases hv : v.object with
    | some o => rw [hv] at h; cases h
    | none =>
      rw [hv] at h
      rw [iterObjects_cons_skip hv]
      exact ih h

theorem Iter.next_iter_some :
    ∀ {l : List (String × WiringOption)} {n : String} {o : Object} {rest},
      Iter.next l = some ((n, o), rest) →
      iterObjects l = (n, o) :: iterObjects rest := by
  intro l
  induction l with
  | nil => intro n o rest h; cases h
  | cons a r2 ih =>
    intro n o rest h
    obtain ⟨k, v⟩ := a
    unfold Iter.next at h
    cases hv : v.object with
    | some obj =>
      rw [hv] at h
      cases h
      exact iterObjects_cons_some hv
    | none =>
      rw [hv] at h
      rw [iterObjects_cons_skip hv]
      exact ih h

theorem drainFuel_eq : ∀ (fuel : Nat) (l : List (String × WiringOption)),
    l.length ≤ fuel → drainFuel fuel l = iterObjects l := by
  intro fuel
  induction fuel with
  | zero =>
    intro l hl
    have hnil : l = [] := List.eq_nil_of_length_eq_zero (Nat.le_zero.mp hl)
    subst hnil
    rfl
  | succ f ih =>
    intro l hl
    unfold drainFuel
    cases hn : Iter.next l with
    | none => rw [Iter.next_iter_none hn]
    | some p =>
      obtain ⟨⟨n2, o⟩, rest⟩ := p
      rw [Iter.next_iter_some hn]
      have hr : rest.length ≤ f :=
        Nat.lt_succ_iff.mp (Nat.lt_of_lt_of_le (Iter.next_length hn) hl)
      show (n2, o) :: drainFuel f rest = (n2, o) :: iterObjects rest
      rw [ih rest hr]

theorem char_eq_of_toNat_eq {a b : Char} (h : a.toNat = b.toNat) : a = b :=
  Char.ext (UInt32.ext h)

theorem mem_setKey_exists {k : String} {v : WiringOption} {p : String × WiringOption} :
    ∀ {l : List (String × WiringOption)},
      p ∈ setKey k v l → (p = (k, v) ∧ ∃ w, (k, w) ∈ l) ∨ p ∈ l := by
  intro l
  induction l with
  | nil => intro h; simp [setKey] at h
  | cons a rest ih =>
    intro h
    obtain ⟨k2, w2⟩ := a
    simp only [setKey] at h
    split at h
    · next heq =>
      rcases List.mem_cons.mp h with h1 | h2
      · exact Or.inl ⟨by rw [h1, heq], w2, by rw [← heq]; exact List.mem_cons_self _ _⟩
      · exact Or.inr (List.mem_cons_of_mem _ h2)
    · rcases List.mem_cons.mp h with h1 | h2
      · exact Or.inr (h1 ▸ List.mem_cons_self _ _)
      · rcases ih h2 with ⟨h3, w3, hw3⟩ | h4
        · exact Or.inl ⟨h3, w3, List.mem_cons_of_mem _ hw3⟩
        · exact Or.inr (List.mem_cons_of_mem _ h4)

theorem strLtAux_trans : ∀ (as bs cs : List Char),
    strLtAux as bs = true → strLtAux bs cs = true → strLtAux as cs = true := by
  intro as
  induction as with
  | nil =>
    intro bs cs h1 h2
    cases bs with
    | nil => cases h1
    | cons b bs =>
      cases cs with
      | nil => cases h2
      | cons c cs => rfl
  | cons a as ih =>
    intro bs cs h1 h2
    cases bs with
    | nil => cases h1
    | cons b bs =>
      cases cs with
      | nil => cases h2
      | cons c cs =>
        simp only [strLtAux, Bool.or_eq_true, Bool.and_eq_true] at h1 h2 ⊢
        rcases h1 with h1 | ⟨hab, h1⟩
        · rcases h2 with h2 | ⟨hbc, h2⟩
          · exact Or.inl (decide_eq_true
              (Nat.lt_trans (of_decide_eq_true h1) (of_decide_eq_true h2)))
          · have hbc2 : b = c := of_decide_eq_true hbc
            subst hbc2
            exact Or.inl h1
        · have hab2 : a = b := of_decide_eq_true hab
          subst hab2
          rcases h2 with h2 | ⟨hbc, h2⟩
          · exact Or.inl h2
          · exact Or.inr ⟨hbc, ih bs cs h1 h2⟩

theorem strLt_trans {a b c : String} (h1 : strLt a b = true) (h2 : strLt b c = true) :
    strLt a c = true :=
  strLtAux_trans a.data b.data c.data h1 h2

theorem strLtAux_total : ∀ (as bs : List Char), as ≠ bs →
    strLtAux as bs = true ∨ strLtAux bs as = true := by
  intro as
  induction as with
  | nil =>
    intro bs hne
    cases bs with
    | nil => exact absurd rfl hne
    | cons b bs => exact Or.inl rfl
  | cons a as ih =>
    intro bs hne
    cases bs with
    | nil => exact Or.inr rfl
    | cons b bs =>
      rcases Nat.lt_trichotomy a.toNat b.toNat with h | h | h
      · refine Or.inl ?_
        simp only [strLtAux, Bool.or_eq_true]
        exact Or.inl (decide_eq_true h)
      · have hab : a = b := char_eq_of_toNat_eq h
        subst hab
        have hne2 : as ≠ bs := fun hc => hne (by rw [hc])
        rcases ih bs hne2 with h1 | h2
        · refine Or.inl ?_
          simp only [strLtAux, Bool.or_eq_true, Bool.and_eq_true]
          exact Or.inr ⟨by simp, h1⟩
        · refine Or.inr ?_
          simp only [strLtAux, Bool.or_eq_true, Bool.and_eq_true]
          exact Or.inr ⟨by simp, h2⟩
      · refine Or.inr ?_
        simp only [strLtAux, Bool.or_eq_true]
        exact Or.inl (decide_eq_true h)

theorem strLt_total {a b : String} (hne : a ≠ b) :
    strLt a b = true ∨ strLt b a = true :=
  strLtAux_total a.data b.data (fun hc => hne (String.ext hc))

theorem keysSorted_insertSorted {k : String} {v : WiringOption} :
    ∀ {l : List (String × WiringOption)}, keysSorted l = true →
      keysSorted (insertSorted k v l) = true := by
  intro l
  induction l with
  | nil => intro _; rfl
  | cons a rest ih =>
    intro hs
    obtain ⟨k2, w⟩ := a
    obtain ⟨hrest, hlt⟩ := keysSorted_cons hs
    simp only [insertSorted]
    split
    · next hklt =>
      simp only [keysSorted, Bool.and_eq_true, List.all_cons]
      refine ⟨⟨hklt, ?_⟩, ?_⟩
      · rw [List.all_eq_true]
        intro b hb
        exact strLt_trans hklt (hlt b hb)
      · simp only [keysSorted, Bool.and_eq_true] at hs ⊢
        exact hs
    · split
      · next hkeq =>
        subst hkeq
        simp only [keysSorted, Bool.and_eq_true]
        refine ⟨?_, hrest⟩
        rw [List.all_eq_true]
        intro b hb
        exact hlt b hb
      · next hnlt hkne =>
        simp only [keysSorted, Bool.and_eq_true]
        refine ⟨?_, ih hrest⟩
        rw [List.all_eq_true]
        intro b hb
        rcases mem_insertSorted hb with h1 | h2
        · rw [h1]
          rcases strLt_total (fun hc : k2 = k => hkne hc.symm) with h3 | h4
          · exact h3
          · exact absurd h4 (fun hc => hnlt hc)
        · exact hlt b h2

theorem keysSorted_setKey {k : String} {v : WiringOption} :
    ∀ {l : List (String × WiringOption)}, keysSorted l = true →
      keysSorted (setKey k v l) = true := by
  intro l
  induction l with
  | nil => intro _; rfl
  | cons a rest ih =>
    intro hs
    obtain ⟨k2, w⟩ := a
    obtain ⟨hrest, hlt⟩ := keysSorted_cons hs
    simp only [setKey]
    split
    · next hkeq =>
      simp only [keysSorted, Bool.and_eq_true]
      refine ⟨?_, hrest⟩
      rw [List.all_eq_true]
      intro b hb
      exact hlt b hb
    · simp only [keysSorted, Bool.and_eq_true]
      refine ⟨?_, ih hrest⟩
      rw [List.all_eq_true]
      intro b hb
      rcases mem_setKey_exists hb with ⟨h1, w2, hw2⟩ | h2
      · rw [h1]
        exact hlt (k, w2) hw2
      · exact hlt b h2

theorem get_object_none_iff {m : ObjectMap} (hinv : m.Inv = true) (n : String) :
    m.get_object n = none
      ↔ (lookupOption n m.options = none
         ∨ ∃ alts, lookupOption n m.options = some (WiringOption.Multi none alts)) := by
  unfold ObjectMap.get_object
  cases hl : lookupOption n m.options with
  | none => simp
  | some o =>
    cases o with
    | Single obj => simp [WiringOption.object]
    | Multi wired alts =>
      cases wired with
      | none => simp [WiringOption.object]
      | some idx =>
        have hb := Inv_lookup hinv hl
        have hidx : idx < alts.length := by
          unfold WiringOption.wiredInBounds at hb
          simpa using hb
        simp only [Option.some_bind, WiringOption.object]
        rw [List.get?_eq_get hidx]
        simp

/-- The `BTreeMap` sortedness invariant assumed by the iteration claim
holds for the empty registry and is preserved by every `Register`
operation, so every reachable registry satisfies it. -/
theorem keysSorted_reachable :
    keysSorted Register.new.objects.options = true
    ∧ ∀ r : Register, keysSorted r.objects.options = true →
        (∀ name r2, r.add_option name = some r2 → keysSorted r2.objects.options = true)
        ∧ (∀ opt_name alt_name obj r2,
             r.add_alternative opt_name alt_name obj = some r2 →
             keysSorted r2.objects.options = true)
        ∧ (∀ opt_name alt_name r2, r.wire_alternative opt_name alt_name = some r2 →
             keysSorted r2.objects.options = true)
        ∧ (∀ name obj r2, r.add_single name obj = some r2 →
             keysSorted r2.objects.options = true) := by
  refine ⟨rfl, fun r hs => ⟨?_, ?_, ?_, ?_⟩⟩
  · intro name r2 h
    unfold Register.add_option at h
    split at h
    · cases h
    · cases h
      exact keysSorted_insertSorted hs
  · intro opt_name alt_name obj r2 h
    unfold Register.add_alternative at h
    cases hl : lookupOption opt_name r.objects.options with
    | none => rw [hl] at h; cases h
    | some o =>
      rw [hl] at h
      simp only [] at h
      rcases Option.map_eq_some'.mp h with ⟨o2, ho2, hr2⟩
      rw [← hr2]
      exact keysSorted_setKey hs
  · intro opt_name alt_name r2 h
    unfold Register.wire_alternative at h
    cases hl : lookupOption opt_name r.objects.options with
    | none => rw [hl] at h; cases h
    | some o =>
      rw [hl] at h
      simp only [] at h
      rcases Option.map_eq_some'.mp h with ⟨o2, ho2, hr2⟩
      rw [← hr2]
      exact keysSorted_setKey hs
  · intro name obj r2 h
    unfold Register.add_single at h
    split at h
    · cases h
      exact keysSorted_insertSorted hs
    · cases h

/-! ### Claim theorems -/

/-- C1: the claim states that `Register::add_single(name, object)` is
fatal when `name` already exists and otherwise creates a `Single`
option.  The code's `assert!` tests `contains_key` without negation
(`src/register.rs:287`), inverting the contract: on a fresh registry the
call `add_single("clock", obj)` is fatal, and on a registry that already
has an option `"clock"` the call succeeds and silently replaces it.
This theorem evaluates the code at both inputs. -/
theorem add_single_assert_inverted :
    Register.new.add_single "clock" ⟨0, 0⟩ = none
    ∧ (Register.new.add_option "clock").bind (fun r => r.add_single "clock" ⟨0, 0⟩)
        = some ⟨⟨[("clock", WiringOption.Single ⟨0, 0⟩)]⟩⟩ := by
  constructor
  · rfl
  · rfl

/-- C9: indexing (`object_map[&name]`, both variants) is fatal exactly
when `get_object(name)` (resp. `get_object_mut`) returns `None` — the
name is absent or the option is an unwired Multi — and otherwise returns
the very object that `get_object(name)` returns; the mutable and
immutable raw accessors agree. -/
theorem index_fatal_iff (m : ObjectMap) (name : String) :
    (m.index name = none ↔ m.get_object name = none)
    ∧ (∀ o, m.get_object name = some o → m.index name = some o)
    ∧ (m.index_mut name = none ↔ m.get_object_mut name = none)
    ∧ (∀ o, m.get_object_mut name = some o → m.index_mut name = some o)
    ∧ m.get_object_mut name = m.get_object name :=
  ⟨Iff.rfl, fun _ h => h, Iff.rfl, fun _ h => h, ObjectMap.get_object_mut_eq m name⟩

/-- Witness for C9 at a concrete registry. -/
theorem index_fatal_iff_witness :
    ObjectMap.index ⟨[("a", WiringOption.Single ⟨1, 0⟩)]⟩ "a" = some ⟨1, 0⟩ :=
  (index_fatal_iff ⟨[("a", WiringOption.Single ⟨1, 0⟩)]⟩ "a").2.1 ⟨1, 0⟩ rfl

/-- C3: `get::<T>` (and `get_mut::<T>`) returns `TypeMismatch` exactly
when an object is resolved under `T`'s reflected name but its runtime
type identity differs from `T`'s; the error carries the option name,
`T`'s type identity as `expected` and the resolved object's identity as
`found`.  When the identities agree it returns `Ok` with that object. -/
theorem get_type_mismatch_iff (m : ObjectMap) (T : OptionReflect) :
    (∀ n e f, m.get T = Except.error (GetObjectError.TypeMismatch n e f)
        ↔ ∃ o, m.get_object T.option_name = some o ∧ o.tyId ≠ T.tyId
             ∧ n = T.option_name ∧ e = T.tyId ∧ f = o.tyId)
    ∧ (∀ o, m.get_object T.option_name = some o → o.tyId = T.tyId →
        m.get T = Except.ok o)
    ∧ m.get_mut T = m.get T := by
  refine ⟨fun n e f => ?_, fun o ho hty => ?_, ObjectMap.get_mut_eq m T⟩
  · unfold ObjectMap.get
    cases ho : m.get_object T.option_name with
    | none =>
      simp only []
      constructor
      · intro h; cases h
      · rintro ⟨o, hco, -⟩; cases hco
    | some base =>
      simp only []
      unfold downcast_ref GetObjectError.type_mismatch
      by_cases hty : base.tyId = T.tyId
      · rw [if_pos hty]
        constructor
        · intro h; cases h
        · rintro ⟨o, hco, hne, -⟩
          cases hco
          exact absurd hty hne
      · rw [if_neg hty]
        constructor
        · intro h
          cases h
          exact ⟨base, rfl, hty, rfl, rfl, rfl⟩
        · rintro ⟨o, hco, -, hn, he, hf⟩
          cases hco
          rw [hn, he, hf]
  · simp [ObjectMap.get, ho, downcast_ref, hty]

/-- Witness for C3: a wired object of type identity 2 requested as type
identity 1 yields the fully populated `TypeMismatch`. -/
theorem get_type_mismatch_iff_witness :
    ObjectMap.get ⟨[("log", WiringOption.Single ⟨2, 0⟩)]⟩ ⟨"log", 1⟩
      = Except.error (GetObjectError.TypeMismatch "log" 1 2) :=
  ((get_type_mismatch_iff ⟨[("log", WiringOption.Single ⟨2, 0⟩)]⟩ ⟨"log", 1⟩).1 "log" 1 2).mpr
    ⟨⟨2, 0⟩, rfl, by decide, rfl, rfl, rfl⟩

/-- C6: `Register::add_alternative(option_name, alt_name, object)` is
fatal exactly when the option is absent, or the alternative name already
exists in that option, or the option is a `Single`; it succeeds in every
other case. -/
theorem add_alternative_fatal_iff (r : Register) (opt_name alt_name : String) (obj : Object) :
    r.add_alternative opt_name alt_name obj = none
      ↔ (lookupOption opt_name r.objects.options = none
         ∨ ∃ o, lookupOption opt_name r.objects.options = some o
              ∧ (o.has_alternative alt_name = true ∨ ∃ b, o = WiringOption.Single b)) := by
  unfold Register.add_alternative
  cases hl : lookupOption opt_name r.objects.options with
  | none => simp
  | some o =>
    simp only [Option.map_eq_none']
    constructor
    · intro h
      refine Or.inr ⟨o, rfl, ?_⟩
      cases o with
      | Single b => exact Or.inr ⟨b, rfl⟩
      | Multi wired alts =>
        left
        by_cases hha : (WiringOption.Multi wired alts).has_alternative alt_name = true
        · exact hha
        · exfalso
          unfold WiringOption.add_alternative at h
          rw [if_neg hha] at h
          cases h
    · rintro (h | ⟨o2, ho2, h⟩)
      · cases h
      · cases ho2
        unfold WiringOption.add_alternative
        rcases h with hha | ⟨b, hb⟩
        · rw [if_pos hha]
        · subst hb
          rfl

/-- Witness for C6: all three fatal cases and one success case on
concrete registries. -/
theorem add_alternative_fatal_iff_witness :
    (Register.add_alternative ⟨⟨[]⟩⟩ "log" "console" ⟨1, 0⟩ = none)
    ∧ (Register.add_alternative ⟨⟨[("log", WiringOption.Multi none [("console", ⟨1, 0⟩)])]⟩⟩
         "log" "console" ⟨1, 0⟩ = none)
    ∧ (Register.add_alternative ⟨⟨[("log", WiringOption.Single ⟨1, 0⟩)]⟩⟩
         "log" "console" ⟨1, 0⟩ = none)
    ∧ (Register.add_alternative ⟨⟨[("log", WiringOption.Multi none [])]⟩⟩
         "log" "console" ⟨1, 0⟩ ≠ none) := by
  refine ⟨?_, ?_, ?_, ?_⟩
  · exact (add_alternative_fatal_iff ⟨⟨[]⟩⟩ "log" "console" ⟨1, 0⟩).mpr (Or.inl rfl)
  · exact (add_alternative_fatal_iff _ "log" "console" ⟨1, 0⟩).mpr
      (Or.inr ⟨_, rfl, Or.inl (by decide)⟩)
  · exact (add_alternative_fatal_iff _ "log" "console" ⟨1, 0⟩).mpr
      (Or.inr ⟨_, rfl, Or.inr ⟨⟨1, 0⟩, rfl⟩⟩)
  · intro hc
    rcases (add_alternative_fatal_iff _ "log" "console" ⟨1, 0⟩).mp hc with h | ⟨o, ho, h⟩
    · cases h
    · cases ho
      rcases h with h1 | ⟨b, hb⟩
      · cases h1
      · cases hb

/-- C2: on registries satisfying the wired-index invariant, `get::<T>`
(and `get_mut::<T>`) returns `MissingOption(n)` with `n` equal to `T`'s
reflected name exactly when no option of that name exists or the option
of that name is a `Multi` whose wired selection is absent. -/
theorem get_missing_iff (m : ObjectMap) (T : OptionReflect) (hinv : m.Inv = true) :
    (m.get T = Except.error (GetObjectError.MissingOption T.option_name)
       ↔ (lookupOption T.option_name m.options = none
          ∨ ∃ alts, lookupOption T.option_name m.options
                      = some (WiringOption.Multi none alts)))
    ∧ (∀ s, m.get T = Except.error (GetObjectError.MissingOption s) → s = T.option_name)
    ∧ m.get_mut T = m.get T := by
  have hstep : ∀ s, m.get T = Except.error (GetObjectError.MissingOption s)
      ↔ (m.get_object T.option_name = none ∧ s = T.option_name) := by
    intro s
    unfold ObjectMap.get
    cases ho : m.get_object T.option_name with
    | none => simp [eq_comm]
    | some base =>
      simp only []
      unfold downcast_ref GetObjectError.type_mismatch
      by_cases hty : base.tyId = T.tyId
      · rw [if_pos hty]
        constructor
        · intro h; cases h
        · rintro ⟨hco, -⟩; cases hco
      · rw [if_neg hty]
        constructor
        · intro h; cases h
        · rintro ⟨hco, -⟩; cases hco
  refine ⟨?_, fun s h => ((hstep s).mp h).2, ObjectMap.get_mut_eq m T⟩
  rw [hstep T.option_name]
  simp [get_object_none_iff hinv]

/-- Witness for C2: an unwired Multi option named by the requested type
yields `MissingOption` with that name. -/
theorem get_missing_iff_witness :
    ObjectMap.get ⟨[("log", WiringOption.Multi none [("console", ⟨1, 0⟩)])]⟩ ⟨"log", 1⟩
      = Except.error (GetObjectError.MissingOption "log") :=
  (get_missing_iff ⟨[("log", WiringOption.Multi none [("console", ⟨1, 0⟩)])]⟩ ⟨"log", 1⟩
    (by decide)).1.mpr (Or.inr ⟨[("console", ⟨1, 0⟩)], rfl⟩)

/-- C4: on a `Multi` option, `wire_alternative(name)` is fatal exactly
when no alternative of that name exists; when it exists the call
succeeds for every previous wired state (rewiring overwrites) and sets
the wired index to the index of an alternative bearing that name, and
the `Register`-level wrapper is fatal under exactly the same condition. -/
theorem wire_alternative_spec (w : Option Nat) (alts : List (String × Object))
    (alt_name : String) :
    ((WiringOption.Multi w alts).wire_alternative alt_name = none
       ↔ (WiringOption.Multi w alts).has_alternative alt_name = false)
    ∧ ((WiringOption.Multi w alts).has_alternative alt_name = true →
         ∃ i, (WiringOption.Multi w alts).wire_alternative alt_name
                = some (WiringOption.Multi (some i) alts)
           ∧ i < alts.length
           ∧ (alts.get? i).map Prod.fst = some alt_name)
    ∧ (∀ (r : Register) (opt_name : String),
         lookupOption opt_name r.objects.options = some (WiringOption.Multi w alts) →
         (r.wire_alternative opt_name alt_name = none
            ↔ (WiringOption.Multi w alts).has_alternative alt_name = false)) := by
  have part1 : (WiringOption.Multi w alts).wire_alternative alt_name = none
      ↔ (WiringOption.Multi w alts).has_alternative alt_name = false := by
    unfold WiringOption.wire_alternative
    by_cases hha : (WiringOption.Multi w alts).has_alternative alt_name = true
    · rw [if_pos hha]
      simp [hha]
    · rw [if_neg hha]
      simp [Bool.not_eq_true] at hha
      simp [hha]
  refine ⟨part1, fun hha => ?_, fun r opt_name hl => ?_⟩
  · have hex : ∃ x ∈ alts, decide (x.1 = alt_name) = true := by
      have := hha
      unfold WiringOption.has_alternative at this
      exact List.any_eq_true.mp this
    have hlt : alts.findIdx (fun e => decide (e.1 = alt_name)) < alts.length :=
      List.findIdx_lt_length_of_exists hex
    refine ⟨alts.findIdx (fun e => decide (e.1 = alt_name)), ?_, hlt, ?_⟩
    · unfold WiringOption.wire_alternative
      rw [if_pos hha]
    · rw [List.get?_eq_get hlt]
      have hp := @List.findIdx_getElem _ (fun e => decide (e.1 = alt_name)) alts hlt
      simp only [Option.map_some']
      exact congrArg some (of_decide_eq_true hp)
  · unfold Register.wire_alternative
    rw [hl]
    rw [Option.map_eq_none']
    exact part1

/-- Witness for C4: wiring the existing alternative `"console"` of a
two-alternative option already wired elsewhere succeeds and selects its
index. -/
theorem wire_alternative_spec_witness :
    ∃ i, (WiringOption.Multi (some 0) [("console", ⟨1, 0⟩), ("file", ⟨2, 0⟩)]).wire_alternative
           "file" = some (WiringOption.Multi (some i)
             [("console", ⟨1, 0⟩), ("file", ⟨2, 0⟩)])
      ∧ i < ([("console", (⟨1, 0⟩ : Object)), ("file", ⟨2, 0⟩)] : List (String × Object)).length
      ∧ (([("console", (⟨1, 0⟩ : Object)), ("file", ⟨2, 0⟩)] : List (String × Object)).get? i).map
          Prod.fst = some "file" :=
  (wire_alternative_spec (some 0) [("console", ⟨1, 0⟩), ("file", ⟨2, 0⟩)] "file").2.1 (by decide)

/-- C8: on a `Multi` option where it succeeds, `add_alternative` appends
the new named alternative at the end, keeps the wired selection and all
previous alternatives (names, objects, order) unchanged, and leaves
every other option of the registry untouched. -/
theorem add_alternative_frame (r : Register) (opt_name alt_name : String) (obj : Object)
    (w : Option Nat) (alts : List (String × Object))
    (hl : lookupOption opt_name r.objects.options = some (WiringOption.Multi w alts))
    (hha : (WiringOption.Multi w alts).has_alternative alt_name = false) :
    ∃ r2, r.add_alternative opt_name alt_name obj = some r2
      ∧ lookupOption opt_name r2.objects.options
          = some (WiringOption.Multi w (alts ++ [(alt_name, obj)]))
      ∧ ∀ n, n ≠ opt_name →
          lookupOption n r2.objects.options = lookupOption n r.objects.options := by
  refine ⟨⟨⟨setKey opt_name (WiringOption.Multi w (alts ++ [(alt_name, obj)]))
      r.objects.options⟩⟩, ?_, ?_, ?_⟩
  · unfold Register.add_alternative
    rw [hl]
    simp only []
    unfold WiringOption.add_alternative
    rw [if_neg (show ¬(WiringOption.Multi w alts).has_alternative alt_name = true by
      simp [hha])]
    rfl
  · exact lookupOption_setKey_self hl
  · intro n hn
    exact lookupOption_setKey_ne hn _

/-- Witness for C8 on a concrete two-option registry. -/
theorem add_alternative_frame_witness :
    ∃ r2, Register.add_alternative
        ⟨⟨[("db", WiringOption.Single ⟨3, 0⟩),
           ("log", WiringOption.Multi (some 0) [("console", ⟨1, 0⟩)])]⟩⟩
        "log" "file" ⟨2, 0⟩ = some r2
      ∧ lookupOption "log" r2.objects.options
          = some (WiringOption.Multi (some 0) [("console", ⟨1, 0⟩), ("file", ⟨2, 0⟩)])
      ∧ ∀ n, n ≠ "log" →
          lookupOption n r2.objects.options
            = lookupOption n [("db", WiringOption.Single ⟨3, 0⟩),
                ("log", WiringOption.Multi (some 0) [("console", ⟨1, 0⟩)])] :=
  add_alternative_frame
    ⟨⟨[("db", WiringOption.Single ⟨3, 0⟩),
       ("log", WiringOption.Multi (some 0) [("console", ⟨1, 0⟩)])]⟩⟩
    "log" "file" ⟨2, 0⟩ (some 0) [("console", ⟨1, 0⟩)] rfl (by decide)

/-- C5: on a registry whose backing map is sorted by option name (the
`BTreeMap` representation invariant), iteration yields a pair
`(n, obj)` exactly when the option named `n` currently resolves to
`obj` — Single options always, wired Multi options via their selection,
unwired Multi options never — the yielded sequence is strictly
ascending in option name (hence independent of insertion order), and
mutable iteration yields the same sequence. -/
theorem iteration_spec (m : ObjectMap) (hs : keysSorted m.options = true) :
    (∀ n obj, ((n, obj) ∈ iterObjects m.options ↔ m.get_object n = some obj))
    ∧ (iterObjects m.options).Pairwise (fun a b => strLt a.1 b.1 = true)
    ∧ iterMutObjects m.options = iterObjects m.options :=
  ⟨fun n obj => iterObjects_mem_iff n obj hs, iterObjects_pairwise hs,
   iterMutObjects_eq m.options⟩

/-- Witness for C5: the spec's example registry `{a: Single(X),
b: Multi unwired, c: Multi wired}` yields exactly `a` and `c`. -/
theorem iteration_spec_witness :
    (("a", (⟨1, 2⟩ : Object)) ∈ iterObjects
        [("a", WiringOption.Single ⟨1, 2⟩), ("b", WiringOption.Multi none []),
         ("c", WiringOption.Multi (some 0) [("y", ⟨3, 4⟩)])])
    ∧ ∀ obj, ("b", obj) ∉ iterObjects
        [("a", WiringOption.Single ⟨1, 2⟩), ("b", WiringOption.Multi none []),
         ("c", WiringOption.Multi (some 0) [("y", ⟨3, 4⟩)])] := by
  have h := iteration_spec
    ⟨[("a", WiringOption.Single ⟨1, 2⟩), ("b", WiringOption.Multi none []),
      ("c", WiringOption.Multi (some 0) [("y", ⟨3, 4⟩)])]⟩ (by decide)
  exact ⟨(h.1 "a" ⟨1, 2⟩).mpr rfl,
    fun obj hmem => by cases (h.1 "b" obj).mp hmem⟩

/-- C7: the wired-index invariant — a `Multi` option's wired index, when
present, is strictly below the length of its alternative list — holds
for the empty registry and is preserved by every mutating operation of
`Register` (`add_option`, `add_alternative`, `wire_alternative`,
`add_single`); the accessors of `ObjectMap` are read-only in the
embedding and cannot disturb it. -/
theorem invariant_preserved :
    ObjectMap.Inv Register.new.objects = true
    ∧ ∀ r : Register, r.objects.Inv = true →
        (∀ name r2, r.add_option name = some r2 → r2.objects.Inv = true)
        ∧ (∀ opt_name alt_name obj r2,
             r.add_alternative opt_name alt_name obj = some r2 → r2.objects.Inv = true)
        ∧ (∀ opt_name alt_name r2,
             r.wire_alternative opt_name alt_name = some r2 → r2.objects.Inv = true)
        ∧ (∀ name obj r2, r.add_single name obj = some r2 → r2.objects.Inv = true) := by
  refine ⟨rfl, fun r hinv => ⟨?_, ?_, ?_, ?_⟩⟩
  · intro name r2 h
    unfold Register.add_option at h
    split at h
    · cases h
    · cases h
      exact all_wiredInBounds_insertSorted hinv rfl
  · intro opt_name alt_name obj r2 h
    unfold Register.add_alternative at h
    cases hl : lookupOption opt_name r.objects.options with
    | none => rw [hl] at h; cases h
    | some o =>
      rw [hl] at h
      simp only [] at h
      rcases Option.map_eq_some'.mp h with ⟨o2, ho2, hr2⟩
      have hb2 : o2.wiredInBounds = true := by
        unfold WiringOption.add_alternative at ho2
        split at ho2
        · cases ho2
        · cases o with
          | Single b => cases ho2
          | Multi w alts =>
            cases ho2
            have hb := Inv_lookup hinv hl
            cases w with
            | none => rfl
            | some idx =>
              unfold WiringOption.wiredInBounds at hb ⊢
              have hidx : idx < alts.length := by simpa using hb
              simp [List.length_append]
              omega
      rw [← hr2]
      exact all_wiredInBounds_setKey hinv hb2
  · intro opt_name alt_name r2 h
    unfold Register.wire_alternative at h
    cases hl : lookupOption opt_name r.objects.options with
    | none => rw [hl] at h; cases h
    | some o =>
      rw [hl] at h
      simp only [] at h
      rcases Option.map_eq_some'.mp h with ⟨o2, ho2, hr2⟩
      have hb2 : o2.wiredInBounds = true := by
        unfold WiringOption.wire_alternative at ho2
        split at ho2
        · next hha =>
          cases o with
          | Single b => cases ho2
          | Multi w alts =>
            cases ho2
            unfold WiringOption.wiredInBounds
            have hex : ∃ x ∈ alts, decide (x.1 = alt_name) = true := by
              unfold WiringOption.has_alternative at hha
              exact List.any_eq_true.mp hha
            simpa using List.findIdx_lt_length_of_exists hex
        · cases ho2
      rw [← hr2]
      exact all_wiredInBounds_setKey hinv hb2
  · intro name obj r2 h
    unfold Register.add_single at h
    split at h
    · cases h
      exact all_wiredInBounds_insertSorted hinv rfl
    · cases h

/-- Witness for C7: wiring the sole alternative of a one-alternative
option preserves the invariant. -/
theorem invariant_preserved_witness :
    ObjectMap.Inv
      (⟨⟨[("log", WiringOption.Multi (some 0) [("console", ⟨1, 0⟩)])]⟩⟩ : Register).objects
      = true :=
  ((invariant_preserved.2 ⟨⟨[("log", WiringOption.Multi none [("console", ⟨1, 0⟩)])]⟩⟩
      (by decide)).2.2.1) "log" "console"
    ⟨⟨[("log", WiringOption.Multi (some 0) [("console", ⟨1, 0⟩)])]⟩⟩ (by decide)

/-- C10: the recursive skip in `Iter::next`/`IterMut::next` is
well-founded: every successful step strictly shrinks the remaining map,
and draining with fuel equal to the number of options (each visited at
most once) produces the complete iteration, ending in `None`. -/
theorem iteration_terminates (l : List (String × WiringOption)) :
    (∀ item rest, Iter.next l = some (item, rest) → rest.length < l.length)
    ∧ (∀ item rest, IterMut.next l = some (item, rest) → rest.length < l.length)
    ∧ drainFuel l.length l = iterObjects l :=
  ⟨fun _ _ h => Iter.next_length h,
   fun _ _ h => Iter.next_length (by rw [IterMut.next_eq] at h; exact h),
   drainFuel_eq l.length l (Nat.le_refl _)⟩

/-- Witness for C10: one step over a two-entry map consumes the first
entry. -/
theorem iteration_terminates_witness :
    ([("b", WiringOption.Multi none [])] : List (String × WiringOption)).length
      < ([("a", WiringOption.Single ⟨1, 2⟩), ("b", WiringOption.Multi none [])] :
          List (String × WiringOption)).length :=
  (iteration_terminates
      [("a", WiringOption.Single ⟨1, 2⟩), ("b", WiringOption.Multi none [])]).1
    ("a", ⟨1, 2⟩) [("b", WiringOption.Multi none [])] rfl

end Ioc
